import Mathlib

/-!
Shallow embedding of the `loghistogram` Go package (github.com/nsd20463/loghistogram),
canonical version: the histogram whose `counts` array has `num_buckets + 2` entries with
outlier buckets at index 0 and index `len-1`, whose total `n` includes outliers, and whose
`Percentiles` chooses a scan direction from the cached `middle_bucket_percentile`.

Modelling conventions:
- Go `uint64` counters are `ℕ` with explicit `% 2^64` where the code's arithmetic wraps.
- Go `float64` sample values and bucket bounds are modelled by exact reals `ℝ`;
  `math.Log`/`math.Exp` become `Real.log`/`Real.exp`.
- The `float64` percentile arguments and the cached `middle_bucket_percentile` only ever
  enter comparisons and ratios of integer counters, so they are modelled by exact
  rationals `ℚ`; Go's `uint64(f)` conversion truncates toward zero, modelled by
  `Int.floor` + `Int.toNat` (the conversion of a negative float to uint64 is
  implementation-specific in Go and outside the claims, which use percentiles ≥ 0).
- Panics (`New` argument check, `Sub` length check, out-of-range bucket index in
  `Accumulate`) are modelled by `Option`, `none` meaning panic.
- The `sync.Mutex` is dropped: the model is the sequential (no operation in flight)
  semantics the claims are about.
- The NaN fill of `Percentiles` on an empty histogram is modelled by the dedicated
  result constructor `PerResult.nans`; real-valued results carry no NaN.
-/

namespace loghistogram

/-- Wrap modulus of Go `uint64` arithmetic. -/
def U64 : ℕ := 2 ^ 64

/-- Go source: `const epsilon = 1E-16`. -/
noncomputable def epsilon : ℝ := 1 / 10 ^ 16

/-- Go `int(f)` conversion for `float64` truncates toward zero. -/
noncomputable def itrunc (y : ℝ) : ℤ := if 0 ≤ y then ⌊y⌋ else -⌊-y⌋

/-- Go `uint64(q)` conversion for a nonnegative float: truncate toward zero. -/
def utrunc (q : ℚ) : ℕ := (⌊q⌋).toNat

/-- Go source: `type Histogram struct { shift, scale float64; lock sync.Mutex;
n uint64; counts []uint64; middle_bucket_percentile float64 }`.
`counts` holds the low outlier bucket at index 0 and the high outlier bucket at the
last index; `n` counts all accumulated samples including outliers. -/
structure Histogram where
  shift : ℝ
  scale : ℝ
  n : ℕ
  counts : List ℕ
  middle_bucket_percentile : ℚ

/-- Go source: `func (h *Histogram) valueToBucket(value float64) int`.
`v := value - h.shift; if v < 1.0 { return 0 };
b := 1 + int(math.Log(v)*h.scale); if b >= len(h.counts) { b = len(h.counts)-1 }`. -/
noncomputable def valueToBucket (h : Histogram) (value : ℝ) : ℤ :=
  let v := value - h.shift
  if v < 1 then 0
  else
    let b := 1 + itrunc (Real.log v * h.scale)
    if (h.counts.length : ℤ) ≤ b then (h.counts.length : ℤ) - 1 else b

/-- Go source: `func (h *Histogram) bucketToValue(bucket int) float64`:
`math.Exp(float64(bucket)/h.scale) + h.shift`. -/
noncomputable def bucketToValue (h : Histogram) (bucket : ℤ) : ℝ :=
  Real.exp ((bucket : ℝ) / h.scale) + h.shift

/-- Go source: `func New(low, high float64, num_buckets int) *Histogram` and
`func (h *Histogram) init(low, high float64, num_buckets int)`:
panics (`none`) when `high < low || num_buckets <= 0`; otherwise
`shift := low - 1; scale := float64(num_buckets) * (1 - epsilon) / math.Log(high-shift);
h.counts = make([]uint64, 2+num_buckets); h.middle_bucket_percentile = -1`. -/
noncomputable def New (low high : ℝ) (num_buckets : ℤ) : Option Histogram :=
  if high < low ∨ num_buckets ≤ 0 then none
  else
    some { shift := low - 1
           scale := (num_buckets : ℝ) * (1 - epsilon) / Real.log (high - (low - 1))
           n := 0
           counts := List.replicate (2 + num_buckets).toNat 0
           middle_bucket_percentile := -1 }

/-- Go source: `func (h *Histogram) Accumulate(x float64)`:
`i := h.valueToBucket(x); h.counts[i]++; h.n++` under the lock.
An out-of-range index would make `h.counts[i]` panic, modelled by `none`. -/
noncomputable def Accumulate (h : Histogram) (x : ℝ) : Option Histogram :=
  let i := valueToBucket h x
  if 0 ≤ i ∧ i.toNat < h.counts.length then
    some { h with counts := h.counts.set i.toNat ((h.counts.getD i.toNat 0 + 1) % U64)
                  n := (h.n + 1) % U64 }
  else none

/-- Go source: `func (h *Histogram) Count() uint64 { return h.n }` (under the lock). -/
def Count (h : Histogram) : ℕ := h.n

/-- Inner `for a < pn && i < len(h.counts)` loop of the low-to-high percentile scan,
including the opportunistic `middle_bucket_percentile` update
`if i == middle_bucket { h.middle_bucket_percentile = 100 * float64(a) / float64(n) }`.
The loop advances `i` at every iteration, so running it with any fuel
≥ `counts.length - i` computes exactly the Go loop. -/
def ascWhile (counts : List ℕ) (ntot pn middle : ℕ) : ℕ → ℕ → ℕ → ℚ → ℕ × ℕ × ℚ
  | 0, a, i, mbp => (a, i, mbp)
  | fuel + 1, a, i, mbp =>
    if a < pn ∧ i < counts.length then
      let a' := (a + counts.getD i 0) % U64
      let mbp' := if i = middle then 100 * (a' : ℚ) / (ntot : ℚ) else mbp
      ascWhile counts ntot pn middle fuel a' (i + 1) mbp'
    else (a, i, mbp)

/-- Outer `for j, p := range pers` loop of the low-to-high scan: for each percentile,
`pn := uint64(p * nf / 100)`, run the inner loop, record the final bucket index
(whose `bucketToValue` is the result slot). Returns the index list and the final
`middle_bucket_percentile`. -/
def ascScan (counts : List ℕ) (ntot middle : ℕ) : List ℚ → ℕ → ℕ → ℚ → List ℕ × ℚ
  | [], _, _, mbp => ([], mbp)
  | p :: rest, a, i, mbp =>
    let pn := utrunc (p * (ntot : ℚ) / 100)
    let r := ascWhile counts ntot pn middle counts.length a i mbp
    let t := ascScan counts ntot middle rest r.1 r.2.1 r.2.2
    (r.2.1 :: t.1, t.2)

/-- Inner `for a >= pn && i >= 0` loop of the high-to-low percentile scan:
`a -= h.counts[i]; i--` with wrapping uint64 subtraction.
The loop decrements `i` at every iteration, so any fuel ≥ `(i+1).toNat` is exact. -/
def descWhile (counts : List ℕ) (pn : ℕ) : ℕ → ℕ → ℤ → ℕ × ℤ
  | 0, a, i => (a, i)
  | fuel + 1, a, i =>
    if pn ≤ a ∧ 0 ≤ i then
      descWhile counts pn fuel ((a + (U64 - counts.getD i.toNat 0 % U64)) % U64) (i - 1)
    else (a, i)

/-- Outer `for j := len(pers) - 1; j >= 0; j--` loop of the high-to-low scan,
written as recursion over the reversed percentile list; the produced index list is
in reversed (high-to-low) order. -/
def descScanRev (counts : List ℕ) (ntot : ℕ) : List ℚ → ℕ → ℤ → List ℤ
  | [], _, _ => []
  | p :: rest, a, i =>
    let pn := utrunc (p * (ntot : ℚ) / 100)
    let r := descWhile counts pn counts.length a i
    r.2 :: descScanRev counts ntot rest r.1 r.2

/-- The low-to-high (`else`) branch of `Percentiles`, started from `a := 0`, `i := 0`,
with `middle_bucket := len(h.counts) / 2`. Returns bucket indices (the values are their
`bucketToValue` images) and the updated `middle_bucket_percentile`. -/
def ascBranch (h : Histogram) (pers : List ℚ) : List ℕ × ℚ :=
  ascScan h.counts h.n (h.counts.length / 2) pers 0 0 h.middle_bucket_percentile

/-- The high-to-low (`then`) branch of `Percentiles`, started from `a := n`,
`i := len(h.counts) - 1`; results are assigned to slots `j` from last to first, so the
reversed scan output is reversed back. -/
def descBranch (h : Histogram) (pers : List ℚ) : List ℤ :=
  (descScanRev h.counts h.n pers.reverse h.n ((h.counts.length : ℤ) - 1)).reverse

/-- Result of `Percentiles`: Go `nil` for an empty argument list, a slice full of NaN
when the total count is zero, or the list of bucket indices whose `bucketToValue`
images fill the returned slice. -/
inductive PerResult
  | nil : PerResult
  | nans : ℕ → PerResult
  | vals : List ℤ → PerResult
deriving DecidableEq

/-- Go source: `func (h *Histogram) Percentiles(pers ...float64) []float64`.
Branch on `h.middle_bucket_percentile >= 0 && pers[0] > h.middle_bucket_percentile`;
each branch returns NaNs when `n == 0`; the low-to-high branch stores the updated
`middle_bucket_percentile` back into the histogram. -/
def PercentilesM (h : Histogram) (pers : List ℚ) : PerResult × Histogram :=
  match pers with
  | [] => (.nil, h)
  | p0 :: _ =>
    if 0 ≤ h.middle_bucket_percentile ∧ h.middle_bucket_percentile < p0 then
      if h.n = 0 then (.nans pers.length, h)
      else (.vals (descBranch h pers), h)
    else
      if h.n = 0 then (.nans pers.length, h)
      else
        let r := ascBranch h pers
        (.vals (r.1.map Int.ofNat), { h with middle_bucket_percentile := r.2 })

/-- Go source: `func (h *Histogram) Percentile(per float64) float64 {
return h.Percentiles(per)[0] }`. `none` models a NaN result. -/
def PercentileM (h : Histogram) (per : ℚ) : Option ℤ × Histogram :=
  match PercentilesM h [per] with
  | (.vals idxs, h') => (some (idxs.headD 0), h')
  | (_, h') => (none, h')

/-- The real values a `PerResult.vals` stands for. -/
noncomputable def resultValues (h : Histogram) (idxs : List ℤ) : List ℝ :=
  idxs.map (bucketToValue h)

/-- Running uint64 recomputation of `n` in `Dup`: `n += c` over the copied counts. -/
def dupN : List ℕ → ℕ → ℕ
  | [], n => n
  | c :: cs, n => dupN cs ((n + c) % U64)

/-- Go source: `func (h *Histogram) Dup() *Histogram`: copies the struct and the counts
slice, recomputing `n` as the uint64 sum of the copied counts. -/
def Dup (h : Histogram) : Histogram :=
  { h with n := dupN h.counts 0 }

/-- The per-index loop shared by both subtraction functions: for each bucket,
add the two's-complement `-c = U64 - c % U64` to the receiver's bucket and to `n`,
all wrapping mod `2^64`. Returns the new counts and the new `n`. -/
def subLoop : List ℕ → List ℕ → ℕ → List ℕ × ℕ
  | cs, [], nacc => (cs, nacc)
  | [], _ :: _, nacc => ([], nacc)
  | c :: cs, c2 :: c2s, nacc =>
    let d := U64 - c2 % U64
    let r := subLoop cs c2s ((nacc + d) % U64)
    (((c + d) % U64) :: r.1, r.2)

/-- Go source: `func (h *Histogram) Sub(h2 *Histogram)`: panics (`none`) when the two
counts slices differ in length; otherwise subtracts bucket by bucket in place,
keeping `n` in step. -/
def Histogram.Sub (h h2 : Histogram) : Option Histogram :=
  if h.counts.length = h2.counts.length then
    let r := subLoop h.counts h2.counts h.n
    some { h with counts := r.1, n := r.2 }
  else none

/-- Per-index loop of the package-level `Sub`: `h.counts[i] = c1 - c2; n += c1 - c2`
with wrapping uint64 arithmetic. Returns the difference counts and the accumulated `n`. -/
def subPkgLoop : List ℕ → List ℕ → ℕ → List ℕ × ℕ
  | [], _, nacc => ([], nacc)
  | _ :: _, [], nacc => ([], nacc)
  | c1 :: c1s, c2 :: c2s, nacc =>
    let d := (c1 + (U64 - c2 % U64)) % U64
    let r := subPkgLoop c1s c2s ((nacc + d) % U64)
    (d :: r.1, r.2)

/-- Go source: package-level `func Sub(h1, h2 *Histogram) *Histogram`: panics (`none`)
on length mismatch; otherwise returns a fresh histogram whose counts are the wrapped
differences and whose `n` is their wrapped running sum, other fields copied from `h1`. -/
def Sub (h1 h2 : Histogram) : Option Histogram :=
  if h1.counts.length = h2.counts.length then
    let r := subPkgLoop h1.counts h2.counts 0
    some { h1 with counts := r.1, n := r.2 }
  else none

/-- Go source: `type WindowedHistogram struct { Histogram; prev struct { n uint64;
counts []uint64 } }`. -/
structure WindowedHistogram extends Histogram where
  prev_n : ℕ
  prev_counts : List ℕ

/-- Go source: `func NewWindowed(low, high float64, num_buckets int) *WindowedHistogram`:
initializes the embedded histogram and an all-zero `prev.counts` of the same length. -/
noncomputable def NewWindowed (low high : ℝ) (num_buckets : ℤ) : Option WindowedHistogram :=
  (New low high num_buckets).map fun h =>
    { toHistogram := h, prev_n := 0, prev_counts := List.replicate h.counts.length 0 }

/-- Go source: `func (h *WindowedHistogram) Window()`: zero `prev.counts`, swap it with
`counts`, move `n` into `prev.n` and reset `n` to zero. -/
def Window (wh : WindowedHistogram) : WindowedHistogram :=
  { toHistogram :=
      { wh.toHistogram with counts := List.replicate wh.prev_counts.length 0, n := 0 }
    prev_n := wh.toHistogram.n
    prev_counts := wh.toHistogram.counts }

/-- Go source: `func (h *WindowedHistogram) Count() uint64 { return h.n + h.prev.n }`
(under the lock, wrapping uint64 addition). -/
def WCount (wh : WindowedHistogram) : ℕ := (wh.toHistogram.n + wh.prev_n) % U64

/-- Histogram states reachable through the public sequential API. -/
inductive Reachable : Histogram → Prop
  | new (low high : ℝ) (num_buckets : ℤ) (h : Histogram) :
      New low high num_buckets = some h → Reachable h
  | acc (h h' : Histogram) (x : ℝ) :
      Reachable h → Accumulate h x = some h' → Reachable h'
  | per (h : Histogram) (pers : List ℚ) :
      Reachable h → Reachable (PercentilesM h pers).2
  | dup (h : Histogram) : Reachable h → Reachable (Dup h)
  | sub (h h2 h' : Histogram) :
      Reachable h → Reachable h2 → Histogram.Sub h h2 = some h' → Reachable h'

/-- The sequential-consistency invariant of §3 of the spec:
the cached total equals the (uint64) sum of all bucket counters. -/
def Inv (h : Histogram) : Prop := h.n = h.counts.sum % U64

/-- Folding `Accumulate` over a list of samples; `none` if any call panics. -/
noncomputable def accumList (h : Histogram) (xs : List ℝ) : Option Histogram :=
  xs.foldlM Accumulate h

/-- Sum of the first `k` bucket counters: the cumulative count `a` the scan loops keep. -/
def prefixSum (l : List ℕ) (k : ℕ) : ℕ := (l.take k).sum

/-- The scale `New 0 100 4` computes. -/
noncomputable def scaleCex : ℝ := 4 * (1 - epsilon) / Real.log 101

/-- The histogram `New 0 100 4` returns: six buckets (four real ones plus the two
outlier buckets), all zero. -/
noncomputable def hcex0 : Histogram :=
  { shift := -1, scale := scaleCex, n := 0
    counts := List.replicate 6 0, middle_bucket_percentile := -1 }

/-- `hcex0` after `Accumulate(-5)` (a low outlier, bucket 0). -/
noncomputable def hcexa : Histogram :=
  { shift := -1, scale := scaleCex, n := 1
    counts := [1, 0, 0, 0, 0, 0], middle_bucket_percentile := -1 }

/-- `hcexa` after `Accumulate(10200)` (a high outlier, bucket 5). -/
noncomputable def hcexb : Histogram :=
  { shift := -1, scale := scaleCex, n := 2
    counts := [1, 0, 0, 0, 0, 1], middle_bucket_percentile := -1 }

/-- `hcexb` after another `Accumulate(10200)`. -/
noncomputable def hcexc : Histogram :=
  { shift := -1, scale := scaleCex, n := 3
    counts := [1, 0, 0, 0, 0, 2], middle_bucket_percentile := -1 }

/-- `hcexc` after another `Accumulate(10200)`: one low outlier, three high outliers. -/
noncomputable def hcexd : Histogram :=
  { shift := -1, scale := scaleCex, n := 4
    counts := [1, 0, 0, 0, 0, 3], middle_bucket_percentile := -1 }

/-- `hcexd` after `Percentiles(50)`: the low-to-high scan crossed the middle bucket
(index 3) with cumulative count 1 of 4, caching `middle_bucket_percentile = 25`. -/
noncomputable def hcexe : Histogram :=
  { shift := -1, scale := scaleCex, n := 4
    counts := [1, 0, 0, 0, 0, 3], middle_bucket_percentile := 25 }

/-- `hcexe` minus itself (in-place `Sub` with its own `Dup`). -/
noncomputable def hcexz : Histogram :=
  { shift := -1, scale := scaleCex, n := 0
    counts := [0, 0, 0, 0, 0, 0], middle_bucket_percentile := 25 }

/-- A concrete windowed histogram used to instantiate the `Window` theorems. -/
noncomputable def wcex : WindowedHistogram :=
  { toHistogram := hcexd, prev_n := 0, prev_counts := List.replicate 6 0 }

lemma U64_pos : 0 < U64 := by norm_num [U64]

lemma epsilon_pos : 0 < epsilon := by norm_num [epsilon]

lemma epsilon_lt_one : epsilon < 1 := by norm_num [epsilon]

/-- The state a successful `New low high num_buckets` produces. -/
lemma New_eq_some {low high : ℝ} {B : ℤ} (hc : ¬(high < low ∨ B ≤ 0)) :
    New low high B =
      some { shift := low - 1
             scale := (B : ℝ) * (1 - epsilon) / Real.log (high - (low - 1))
             n := 0
             counts := List.replicate (2 + B).toNat 0
             middle_bucket_percentile := -1 } := by
  simp [New, hc]

lemma New_scale_nonneg {low high : ℝ} {B : ℤ} {h : Histogram}
    (hnew : New low high B = some h) : 0 ≤ h.scale := by
  by_cases hc : high < low ∨ B ≤ 0
  · simp [New, hc] at hnew
  · rw [New_eq_some hc] at hnew
    obtain rfl : _ = h := Option.some_inj.mp hnew
    push_neg at hc
    have hB : (1 : ℝ) ≤ (B : ℤ) := by exact_mod_cast hc.2
    have hlog : 0 ≤ Real.log (high - (low - 1)) :=
      Real.log_nonneg (by linarith [hc.1])
    exact div_nonneg (mul_nonneg (by linarith) (by linarith [epsilon_lt_one])) hlog

lemma New_scale_pos {low high : ℝ} {B : ℤ} {h : Histogram}
    (hnew : New low high B = some h) (hlh : low < high) : 0 < h.scale := by
  by_cases hc : high < low ∨ B ≤ 0
  · simp [New, hc] at hnew
  · rw [New_eq_some hc] at hnew
    obtain rfl : _ = h := Option.some_inj.mp hnew
    push_neg at hc
    have hB : (1 : ℝ) ≤ (B : ℤ) := by exact_mod_cast hc.2
    have hlog : 0 < Real.log (high - (low - 1)) :=
      Real.log_pos (by linarith)
    exact div_pos (mul_pos (by linarith) (by linarith [epsilon_lt_one])) hlog

lemma New_counts_length {low high : ℝ} {B : ℤ} {h : Histogram}
    (hnew : New low high B = some h) : 1 ≤ h.counts.length := by
  by_cases hc : high < low ∨ B ≤ 0
  · simp [New, hc] at hnew
  · rw [New_eq_some hc] at hnew
    obtain rfl : _ = h := Option.some_inj.mp hnew
    push_neg at hc
    simp only [List.length_replicate]
    omega

/-- For a histogram with nonnegative `scale` (every histogram `New` builds),
`valueToBucket` lands inside the counts array. -/
lemma valueToBucket_inRange (h : Histogram) (x : ℝ)
    (hsc : 0 ≤ h.scale) (hlen : 1 ≤ h.counts.length) :
    0 ≤ valueToBucket h x ∧ (valueToBucket h x).toNat < h.counts.length := by
  unfold valueToBucket
  by_cases hv : x - h.shift < 1
  · simp [hv]; omega
  · push_neg at hv
    have hlog : 0 ≤ Real.log (x - h.shift) := Real.log_nonneg hv
    have hprod : 0 ≤ Real.log (x - h.shift) * h.scale := mul_nonneg hlog hsc
    have htr : 0 ≤ itrunc (Real.log (x - h.shift) * h.scale) := by
      unfold itrunc
      rw [if_pos hprod]
      exact Int.floor_nonneg.mpr hprod
    simp only [if_neg (not_lt.mpr hv)]
    by_cases hb : (h.counts.length : ℤ) ≤ 1 + itrunc (Real.log (x - h.shift) * h.scale)
    · rw [if_pos hb]
      omega
    · rw [if_neg hb]
      push_neg at hb
      omega

/-- `Accumulate` always succeeds on such a histogram, bumps `n` by one (mod 2^64),
bumps the counter sum by one (mod 2^64), and changes nothing else. -/
lemma Accumulate_spec (h : Histogram) (x : ℝ)
    (hsc : 0 ≤ h.scale) (hlen : 1 ≤ h.counts.length) :
    ∃ h', Accumulate h x = some h' ∧ h'.n = (h.n + 1) % U64 ∧
      h'.scale = h.scale ∧ h'.shift = h.shift ∧
      h'.counts.length = h.counts.length ∧
      h'.middle_bucket_percentile = h.middle_bucket_percentile := by
  obtain ⟨h0, h1⟩ := valueToBucket_inRange h x hsc hlen
  refine ⟨{ h with
      counts := h.counts.set (valueToBucket h x).toNat
        ((h.counts.getD (valueToBucket h x).toNat 0 + 1) % U64)
      n := (h.n + 1) % U64 }, ?_, rfl, rfl, rfl, ?_, rfl⟩
  · unfold Accumulate
    rw [if_pos ⟨h0, h1⟩]
  · simp [List.length_set]

/-- Every `Accumulate` call adds exactly one to `n` (mod 2^64): folding over a sample
list, the final `n` is the initial `n` plus the number of samples, mod 2^64. -/
lemma accumList_spec (xs : List ℝ) : ∀ (h : Histogram), 0 ≤ h.scale →
    1 ≤ h.counts.length → h.n < U64 →
    ∃ h', accumList h xs = some h' ∧ h'.n = (h.n + xs.length) % U64 ∧
      h'.scale = h.scale ∧ h'.counts.length = h.counts.length := by
  induction xs with
  | nil =>
    intro h hsc hlen hn
    exact ⟨h, rfl, by simpa using (Nat.mod_eq_of_lt hn).symm, rfl, rfl⟩
  | cons x rest ih =>
    intro h hsc hlen hn
    obtain ⟨h1, hacc, hn1, hsc1, _, hlen1, _⟩ := Accumulate_spec h x hsc hlen
    obtain ⟨h', hfold, hn', hsc', hlen'⟩ :=
      ih h1 (hsc1 ▸ hsc) (hlen1 ▸ hlen) (hn1 ▸ Nat.mod_lt _ U64_pos)
    refine ⟨h', ?_, ?_, by rw [hsc', hsc1], by rw [hlen', hlen1]⟩
    · simp only [accumList, List.foldlM_cons] at hfold ⊢
      rw [hacc]
      exact hfold
    · rw [hn', hn1, Nat.mod_add_mod, List.length_cons]
      ring_nf

lemma New_n_eq_zero {low high : ℝ} {B : ℤ} {h : Histogram}
    (hnew : New low high B = some h) : h.n = 0 := by
  by_cases hc : high < low ∨ B ≤ 0
  · simp [New, hc] at hnew
  · rw [New_eq_some hc] at hnew
    obtain rfl : _ = h := Option.some_inj.mp hnew
    rfl

lemma New_cex : New 0 100 4 = some hcex0 := by
  rw [New_eq_some (by norm_num)]
  unfold hcex0 scaleCex
  norm_num
  rfl

/-- C9: `New(low, high, bucketCount)` fails (panics) exactly when `high < low` or
`bucketCount ≤ 0`; for all other parameters it returns a histogram with
`bucketCount + 2` counters, all zero. -/
theorem C9_new_validation (low high : ℝ) (B : ℤ) :
    (New low high B = none ↔ high < low ∨ B ≤ 0) ∧
    (∀ h, New low high B = some h →
      (h.counts.length : ℤ) = B + 2 ∧ (∀ c ∈ h.counts, c = 0) ∧ h.n = 0) := by
  by_cases hc : high < low ∨ B ≤ 0
  · refine ⟨by simp [New, hc], ?_⟩
    intro h hsome
    simp [New, hc] at hsome
  · refine ⟨by simp [New, hc], ?_⟩
    intro h hsome
    rw [New_eq_some hc] at hsome
    obtain rfl : _ = h := Option.some_inj.mp hsome
    push_neg at hc
    refine ⟨?_, ?_, rfl⟩
    · simp only [List.length_replicate]
      rw [Int.toNat_of_nonneg (by omega)]
      ring
    · intro c hcmem
      exact List.eq_of_mem_replicate hcmem

/-- C9 witness: instantiated at `New 0 100 4`. -/
theorem C9_witness :
    New 0 100 4 = some hcex0 ∧
      ((hcex0.counts.length : ℤ) = 4 + 2 ∧ (∀ c ∈ hcex0.counts, c = 0) ∧ hcex0.n = 0) :=
  ⟨New_cex, (C9_new_validation 0 100 4).2 hcex0 New_cex⟩

/-- C10: for a histogram validly constructed by `New` (`low < high`, so the scale is a
well-defined finite number) and any (finite, non-NaN, modelled as real) sample value,
`valueToBucket` returns an index in `[0, len(counts)-1]`, so the counter increment in
`Accumulate` never indexes out of bounds and `Accumulate` cannot panic. -/
theorem C10_bucket_index_in_range (low high : ℝ) (B : ℤ) (h : Histogram)
    (hnew : New low high B = some h) (hlh : low < high) (x : ℝ) :
    0 ≤ valueToBucket h x ∧ (valueToBucket h x).toNat < h.counts.length ∧
      (Accumulate h x).isSome := by
  have hsc := New_scale_nonneg hnew
  have hlen := New_counts_length hnew
  obtain ⟨h0, h1⟩ := valueToBucket_inRange h x hsc hlen
  refine ⟨h0, h1, ?_⟩
  obtain ⟨h', hacc, _⟩ := Accumulate_spec h x hsc hlen
  simp [hacc]

/-- C10 witness: instantiated at `New 0 100 4` and the sample value 37. -/
theorem C10_witness :
    (0 : ℝ) < 100 ∧
      (0 ≤ valueToBucket hcex0 37 ∧ (valueToBucket hcex0 37).toNat < hcex0.counts.length ∧
        (Accumulate hcex0 37).isSome) :=
  ⟨by norm_num, C10_bucket_index_in_range 0 100 4 hcex0 New_cex (by norm_num) 37⟩

/-- C3: for every histogram built by `New`, after any sequence of `Accumulate` calls
(fewer than 2^64 of them; sample values may lie outside `[low, high]`, landing in the
outlier buckets), `Count()` returns exactly the number of `Accumulate` calls made. -/
theorem C3_count_counts_all_accumulates (low high : ℝ) (B : ℤ) (h0 : Histogram)
    (xs : List ℝ) (hnew : New low high B = some h0) (hxs : xs.length < U64) :
    ∃ h', accumList h0 xs = some h' ∧ Count h' = xs.length := by
  obtain ⟨h', hfold, hn', _, _⟩ :=
    accumList_spec xs h0 (New_scale_nonneg hnew) (New_counts_length hnew)
      (by rw [New_n_eq_zero hnew]; exact U64_pos)
  refine ⟨h', hfold, ?_⟩
  rw [Count, hn', New_n_eq_zero hnew]
  simpa using Nat.mod_eq_of_lt hxs

/-- C3 witness: two samples, both below `low` (outliers), still counted. -/
theorem C3_witness :
    New 0 100 4 = some hcex0 ∧ ([(-5 : ℝ), -7].length < U64) ∧
      ∃ h', accumList hcex0 [(-5 : ℝ), -7] = some h' ∧ Count h' = 2 :=
  ⟨New_cex, by norm_num [U64],
    C3_count_counts_all_accumulates 0 100 4 hcex0 [(-5 : ℝ), -7] New_cex (by norm_num [U64])⟩

/-- C4: on a histogram whose total count is zero, `Percentiles` with any non-empty
argument list fills every result slot with NaN and `Percentile` returns NaN, whatever
percentiles are requested and whichever scan direction the heuristic would choose. -/
theorem C4_empty_histogram_nans (h : Histogram) (pers : List ℚ) (p : ℚ)
    (hn : h.n = 0) (hne : pers ≠ []) :
    (PercentilesM h pers).1 = PerResult.nans pers.length ∧
      (PercentileM h p).1 = none := by
  constructor
  · cases pers with
    | nil => exact absurd rfl hne
    | cons p0 rest =>
      unfold PercentilesM
      by_cases hb : 0 ≤ h.middle_bucket_percentile ∧ h.middle_bucket_percentile < p0
      · simp [hb, hn]
      · simp [hb, hn]
  · unfold PercentileM PercentilesM
    by_cases hb : 0 ≤ h.middle_bucket_percentile ∧ h.middle_bucket_percentile < p
    · simp [hb, hn]
    · simp [hb, hn]

/-- C4 witness: the empty histogram `New 0 100 4` with percentiles 50 and 90. -/
theorem C4_witness :
    (hcex0.n = 0 ∧ [(50 : ℚ), 90] ≠ []) ∧
      (PercentilesM hcex0 [50, 90]).1 = PerResult.nans 2 ∧
      (PercentileM hcex0 50).1 = none :=
  ⟨⟨rfl, by simp⟩, C4_empty_histogram_nans hcex0 [50, 90] 50 rfl (by simp)⟩

lemma list_sum_set_add (l : List ℕ) : ∀ (i x : ℕ), i < l.length →
    (l.set i x).sum + l.getD i 0 = l.sum + x := by
  induction l with
  | nil => intro i x hi; simp at hi
  | cons c cs ih =>
    intro i x hi
    cases i with
    | zero => simp [List.set]; omega
    | succ j =>
      simp only [List.set_cons_succ, List.sum_cons, List.getD_cons_succ]
      have := ih j x (by simpa using hi)
      omega

lemma Accumulate_sum {h h' : Histogram} {x : ℝ} (hacc : Accumulate h x = some h') :
    h'.n = (h.n + 1) % U64 ∧ h'.counts.sum % U64 = (h.counts.sum + 1) % U64 := by
  unfold Accumulate at hacc
  by_cases hi : 0 ≤ valueToBucket h x ∧ (valueToBucket h x).toNat < h.counts.length
  · rw [if_pos hi] at hacc
    obtain rfl : _ = h' := Option.some_inj.mp hacc
    refine ⟨rfl, ?_⟩
    have hset := list_sum_set_add h.counts (valueToBucket h x).toNat
      ((h.counts.getD (valueToBucket h x).toNat 0 + 1) % U64) hi.2
    have hmeq :
        (h.counts.set (valueToBucket h x).toNat
            ((h.counts.getD (valueToBucket h x).toNat 0 + 1) % U64)).sum +
            h.counts.getD (valueToBucket h x).toNat 0 ≡
          (h.counts.sum + 1) + h.counts.getD (valueToBucket h x).toNat 0 [MOD U64] := by
      rw [hset]
      calc h.counts.sum + (h.counts.getD (valueToBucket h x).toNat 0 + 1) % U64
          ≡ h.counts.sum + (h.counts.getD (valueToBucket h x).toNat 0 + 1) [MOD U64] :=
            Nat.ModEq.add_left _ (Nat.mod_modEq _ _)
        _ = (h.counts.sum + 1) + h.counts.getD (valueToBucket h x).toNat 0 := by ring
    exact Nat.ModEq.add_right_cancel (Nat.ModEq.refl _) hmeq
  · rw [if_neg hi] at hacc
    exact absurd hacc (by simp)

lemma Inv_accumulate {h h' : Histogram} {x : ℝ} (hinv : Inv h)
    (hacc : Accumulate h x = some h') : Inv h' := by
  obtain ⟨hn, hsum⟩ := Accumulate_sum hacc
  unfold Inv at hinv ⊢
  rw [hn, hinv, Nat.mod_add_mod, ← hsum]

lemma subLoop_spec : ∀ (cs c2s : List ℕ) (nacc : ℕ), cs.length = c2s.length →
    ((subLoop cs c2s nacc).2 % U64 =
        (nacc + (c2s.map (fun c => U64 - c % U64)).sum) % U64) ∧
      ((subLoop cs c2s nacc).1.sum % U64 =
        (cs.sum + (c2s.map (fun c => U64 - c % U64)).sum) % U64) ∧
      (c2s ≠ [] → (subLoop cs c2s nacc).2 < U64) := by
  intro cs
  induction cs with
  | nil =>
    intro c2s nacc hlen
    obtain rfl : c2s = [] := by cases c2s with
      | nil => rfl
      | cons a b => simp at hlen
    simp [subLoop]
  | cons c cs' ih =>
    intro c2s nacc hlen
    cases c2s with
    | nil => simp at hlen
    | cons c2 c2s' =>
      obtain ⟨ih1, ih2, ih3⟩ :=
        ih c2s' ((nacc + (U64 - c2 % U64)) % U64) (by simpa using hlen)
      refine ⟨?_, ?_, ?_⟩
      · show (subLoop cs' c2s' ((nacc + (U64 - c2 % U64)) % U64)).2 % U64 = _
        rw [ih1, Nat.mod_add_mod]
        simp only [List.map_cons, List.sum_cons]
        ring_nf
      · show ((c + (U64 - c2 % U64)) % U64 +
            (subLoop cs' c2s' ((nacc + (U64 - c2 % U64)) % U64)).1.sum) % U64 = _
        have e1 : (c + (U64 - c2 % U64)) % U64 +
            (subLoop cs' c2s' ((nacc + (U64 - c2 % U64)) % U64)).1.sum ≡
              c + (U64 - c2 % U64) +
                (cs'.sum + (c2s'.map (fun c => U64 - c % U64)).sum) [MOD U64] :=
          Nat.ModEq.add (Nat.mod_modEq (c + (U64 - c2 % U64)) U64) ih2
        rw [show ((c :: cs').sum + ((c2 :: c2s').map (fun c => U64 - c % U64)).sum) =
            c + (U64 - c2 % U64) + (cs'.sum + (c2s'.map (fun c => U64 - c % U64)).sum)
          from by simp [List.sum_cons, List.map_cons]; ring]
        exact e1
      · intro _
        by_cases hc2 : c2s' = []
        · subst hc2
          obtain rfl : cs' = [] := by cases cs' with
            | nil => rfl
            | cons a b => simp at hlen
          show (subLoop [] [] ((nacc + (U64 - c2 % U64)) % U64)).2 < U64
          exact Nat.mod_lt _ U64_pos
        · exact ih3 hc2

lemma subLoop_nil (cs : List ℕ) (nacc : ℕ) : subLoop cs [] nacc = (cs, nacc) := by
  cases cs <;> simp [subLoop]

lemma Inv_sub {h h2 h' : Histogram} (hinv : Inv h)
    (hsub : Histogram.Sub h h2 = some h') : Inv h' := by
  unfold Histogram.Sub at hsub
  by_cases hlen : h.counts.length = h2.counts.length
  · rw [if_pos hlen] at hsub
    obtain rfl : _ = h' := Option.some_inj.mp hsub
    unfold Inv
    show (subLoop h.counts h2.counts h.n).2 = (subLoop h.counts h2.counts h.n).1.sum % U64
    by_cases hc2 : h2.counts = []
    · rw [hc2, subLoop_nil]
      exact hinv
    · obtain ⟨s1, s2, s3⟩ := subLoop_spec h.counts h2.counts h.n hlen
      rw [s2, ← Nat.mod_eq_of_lt (s3 hc2), s1, hinv, Nat.mod_add_mod]
  · rw [if_neg hlen] at hsub
    exact absurd hsub (by simp)

lemma dupN_eq (cs : List ℕ) : ∀ (nacc : ℕ), nacc < U64 →
    dupN cs nacc = (nacc + cs.sum) % U64 := by
  induction cs with
  | nil => intro nacc h; simp [dupN, Nat.mod_eq_of_lt h]
  | cons c cs' ih =>
    intro nacc h
    show dupN cs' ((nacc + c) % U64) = _
    rw [ih _ (Nat.mod_lt _ U64_pos), Nat.mod_add_mod, List.sum_cons]
    ring_nf

lemma Inv_dup (h : Histogram) : Inv (Dup h) := by
  unfold Inv Dup
  simp only
  rw [dupN_eq h.counts 0 U64_pos]
  simp

lemma subPkgLoop_spec (c1s : List ℕ) : ∀ (c2s : List ℕ) (nacc : ℕ), nacc < U64 →
    (subPkgLoop c1s c2s nacc).2 = (nacc + (subPkgLoop c1s c2s nacc).1.sum) % U64 := by
  induction c1s with
  | nil => intro c2s nacc h; simp [subPkgLoop, Nat.mod_eq_of_lt h]
  | cons c1 c1s' ih =>
    intro c2s nacc h
    cases c2s with
    | nil => simp [subPkgLoop, Nat.mod_eq_of_lt h]
    | cons c2 c2s' =>
      simp only [subPkgLoop, List.sum_cons]
      rw [ih c2s' _ (Nat.mod_lt _ U64_pos), Nat.mod_add_mod, Nat.add_mod_mod]
      ring_nf

lemma Inv_subPkg {h1 h2 h' : Histogram} (hsub : Sub h1 h2 = some h') : Inv h' := by
  unfold Sub at hsub
  by_cases hlen : h1.counts.length = h2.counts.length
  · rw [if_pos hlen] at hsub
    obtain rfl : _ = h' := Option.some_inj.mp hsub
    unfold Inv
    show (subPkgLoop h1.counts h2.counts 0).2 = _
    rw [subPkgLoop_spec h1.counts h2.counts 0 U64_pos]
    simp
  · rw [if_neg hlen] at hsub
    exact absurd hsub (by simp)

/-- C5: in sequential execution the cached total `n` equals the uint64 sum of the
`counts` entries, and every operation preserves or establishes this: `Accumulate`,
in-place `Sub` and `Window` preserve it (and `Window` establishes it for the rotated
previous buffer), while `Dup` and the package-level `Sub` establish it by construction
on the histograms they return. -/
theorem C5_n_is_sum_invariant :
    (∀ (h h' : Histogram) (x : ℝ), Inv h → Accumulate h x = some h' → Inv h') ∧
    (∀ h h2 h' : Histogram, Inv h → Histogram.Sub h h2 = some h' → Inv h') ∧
    (∀ wh : WindowedHistogram, Inv wh.toHistogram →
      Inv (Window wh).toHistogram ∧
        (Window wh).prev_n = (Window wh).prev_counts.sum % U64) ∧
    (∀ h : Histogram, Inv (Dup h)) ∧
    (∀ h1 h2 h' : Histogram, Sub h1 h2 = some h' → Inv h') := by
  refine ⟨fun h h' x hinv hacc => Inv_accumulate hinv hacc,
    fun h h2 h' hinv hsub => Inv_sub hinv hsub, ?_,
    Inv_dup, fun h1 h2 h' hsub => Inv_subPkg hsub⟩
  intro wh hinv
  constructor
  · unfold Inv Window
    simp [List.sum_replicate]
  · exact hinv

lemma wrap_cancel (c : ℕ) : (c + (U64 - c % U64)) % U64 = 0 := by
  have h1 : c % U64 < U64 := Nat.mod_lt _ U64_pos
  have h2 : c % U64 ≤ c := Nat.mod_le _ _
  have h3 : c + (U64 - c % U64) = (c - c % U64) + U64 := by omega
  have h4 : c - c % U64 = U64 * (c / U64) := by
    have := Nat.div_add_mod c U64
    omega
  rw [h3, Nat.add_mod_right, h4, Nat.mul_mod_right]

lemma sum_self_cancel : ∀ cs : List ℕ,
    (cs.sum + (cs.map (fun c => U64 - c % U64)).sum) % U64 = 0 := by
  intro cs
  induction cs with
  | nil => simp
  | cons c cs' ih =>
    simp only [List.sum_cons, List.map_cons]
    have : c + cs'.sum + (U64 - c % U64 + (cs'.map (fun c => U64 - c % U64)).sum) =
        (c + (U64 - c % U64)) + (cs'.sum + (cs'.map (fun c => U64 - c % U64)).sum) := by
      ring
    rw [this, Nat.add_mod, wrap_cancel, ih]
    simp

lemma subLoop_self_counts : ∀ (cs : List ℕ) (nacc : ℕ) (c : ℕ),
    c ∈ (subLoop cs cs nacc).1 → c = 0 := by
  intro cs
  induction cs with
  | nil => intro nacc c hc; simp [subLoop] at hc
  | cons c0 cs' ih =>
    intro nacc c hc
    show c = 0
    rcases List.mem_cons.mp hc with h | h
    · rw [h]; exact wrap_cancel c0
    · exact ih _ c h

/-- C8: `Dup` immediately followed by in-place `Sub` of the dup (no accumulation in
between) zeroes the histogram: `Count() == 0` and every bucket counter is zero. -/
theorem C8_dup_then_sub_zeroes (h : Histogram) (hinv : Inv h) :
    ∃ h', Histogram.Sub h (Dup h) = some h' ∧ Count h' = 0 ∧ ∀ c ∈ h'.counts, c = 0 := by
  have key : Histogram.Sub h (Dup h) =
      some { h with counts := (subLoop h.counts h.counts h.n).1, n := (subLoop h.counts h.counts h.n).2 } := by
    unfold Histogram.Sub
    rw [show (Dup h).counts = h.counts from rfl, if_pos rfl]
  refine ⟨_, key, ?_, ?_⟩
  · show (subLoop h.counts h.counts h.n).2 = 0
    by_cases hc : h.counts = []
    · rw [hc]
      show h.n = 0
      rw [hinv, hc]
      simp
    · obtain ⟨s1, _, s3⟩ := subLoop_spec h.counts h.counts h.n rfl
      rw [← Nat.mod_eq_of_lt (s3 hc), s1, hinv, Nat.mod_add_mod, sum_self_cancel]
  · exact subLoop_self_counts h.counts h.n

/-- C6: after `Window()` the previous-window totals are the pre-call current totals and
the current buffer is zeroed; `Count()` then reflects exactly the pre-call current
total; a second `Window()` with no intervening `Accumulate` gives `Count() == 0`, and
`Count() == 0` means both summed windows were empty. -/
theorem C6_window_semantics :
    (∀ wh : WindowedHistogram,
      (Window wh).prev_n = wh.toHistogram.n ∧
        (Window wh).prev_counts = wh.toHistogram.counts ∧
        (Window wh).toHistogram.n = 0 ∧
        (Window wh).toHistogram.counts = List.replicate wh.prev_counts.length 0) ∧
    (∀ wh : WindowedHistogram, wh.toHistogram.n < U64 →
      WCount (Window wh) = wh.toHistogram.n) ∧
    (∀ wh : WindowedHistogram, WCount (Window (Window wh)) = 0) ∧
    (∀ wh : WindowedHistogram, wh.toHistogram.n + wh.prev_n < U64 →
      (WCount wh = 0 ↔ wh.toHistogram.n = 0 ∧ wh.prev_n = 0)) := by
  refine ⟨fun wh => ⟨rfl, rfl, rfl, rfl⟩, ?_, ?_, ?_⟩
  · intro wh hn
    show (0 + wh.toHistogram.n) % U64 = wh.toHistogram.n
    rw [Nat.zero_add, Nat.mod_eq_of_lt hn]
  · intro wh
    show (0 + 0) % U64 = 0
    norm_num
  · intro wh hlt
    unfold WCount
    rw [Nat.mod_eq_of_lt hlt]
    omega

lemma scaleCex_pos : 0 < scaleCex := by
  unfold scaleCex
  have h1 : 0 < Real.log 101 := Real.log_pos (by norm_num)
  have h2 : (0 : ℝ) < 1 - epsilon := by norm_num [epsilon]
  exact div_pos (by positivity) h1

lemma vtb_low : valueToBucket hcex0 (-5) = 0 := by
  unfold valueToBucket
  rw [if_pos (show (-5 : ℝ) - hcex0.shift < 1 by norm_num [hcex0])]

/-- `Accumulate(10200)` hits the high outlier bucket: `10200 - shift = 10201 = 101²`,
so `log(10201) · scale = 2·log 101 · 4(1-ε)/log 101 = 8(1-ε)`, truncating to 7; the
raw bucket 8 is clamped to `len(counts) - 1 = 5`. -/
lemma vtb_high (h : Histogram) (hs : h.shift = -1) (hsc : h.scale = scaleCex)
    (hlen : h.counts.length = 6) : valueToBucket h 10200 = 5 := by
  unfold valueToBucket
  rw [hs, hsc, hlen]
  rw [if_neg (show ¬((10200 : ℝ) - -1 < 1) by norm_num)]
  have hprod : Real.log ((10200 : ℝ) - -1) * scaleCex = 8 * (1 - epsilon) := by
    rw [show (10200 : ℝ) - -1 = 101 ^ 2 by norm_num, Real.log_pow]
    unfold scaleCex
    have hl101 : Real.log 101 ≠ 0 := ne_of_gt (Real.log_pos (by norm_num))
    field_simp
    ring
  rw [hprod]
  have htr : itrunc (8 * (1 - epsilon)) = 7 := by
    unfold itrunc
    rw [if_pos (by norm_num [epsilon])]
    exact Int.floor_eq_iff.mpr ⟨by norm_num [epsilon], by norm_num [epsilon]⟩
  rw [htr]
  norm_num

lemma acc_cex_1 : Accumulate hcex0 (-5) = some hcexa := by
  unfold Accumulate
  rw [vtb_low]
  rfl

lemma acc_cex_2 : Accumulate hcexa 10200 = some hcexb := by
  unfold Accumulate
  rw [vtb_high hcexa rfl rfl rfl]
  rfl

lemma acc_cex_3 : Accumulate hcexb 10200 = some hcexc := by
  unfold Accumulate
  rw [vtb_high hcexb rfl rfl rfl]
  rfl

lemma acc_cex_4 : Accumulate hcexc 10200 = some hcexd := by
  unfold Accumulate
  rw [vtb_high hcexc rfl rfl rfl]
  rfl

lemma utrunc_50_4 : utrunc ((50 : ℚ) * ((4 : ℕ) : ℚ) / 100) = 2 := by
  norm_num [utrunc]
  decide

/-- The low-to-high scan on `[1,0,0,0,0,3]` with `n = 4` and `p = 50` (`pn = 2`):
it consumes every bucket, ends at index 6, and caches the middle-bucket percentile
`100·1/4 = 25` while crossing index 3. -/
lemma ascBranch_cexd : ascBranch hcexd [50] = ([6], 25) := by
  show ascScan [1, 0, 0, 0, 0, 3] 4 3 [50] 0 0 (-1) = ([6], 25)
  simp only [ascScan]
  rw [utrunc_50_4]
  rw [show ascWhile [1, 0, 0, 0, 0, 3] 4 2 3 [1, 0, 0, 0, 0, 3].length 0 0 (-1) =
    (4, 6, 25) by norm_num [ascWhile, U64]]

/-- The high-to-low scan on the same state (taken once `middle_bucket_percentile = 25`
and `pers[0] = 50 > 25`): starting from `a = 4`, it subtracts the high outlier bucket
(3 samples) and stops at index 4. -/
lemma descBranch_cexe : descBranch hcexe [50] = [4] := by
  show (descScanRev [1, 0, 0, 0, 0, 3] 4 [50] 4 5).reverse = [4]
  simp only [descScanRev]
  rw [utrunc_50_4]
  rw [show descWhile [1, 0, 0, 0, 0, 3] 2 [1, 0, 0, 0, 0, 3].length 4 5 = (1, 4) by
    decide]
  simp [descScanRev]

lemma perc_cex_1 : PercentilesM hcexd [50] = (.vals [6], hcexe) := by
  simp only [PercentilesM]
  rw [if_neg (show ¬(0 ≤ hcexd.middle_bucket_percentile ∧
    hcexd.middle_bucket_percentile < 50) by decide)]
  rw [if_neg (show ¬(hcexd.n = 0) by decide)]
  rw [ascBranch_cexd]
  rfl

lemma perc_cex_2 : PercentilesM hcexe [50] = (.vals [4], hcexe) := by
  simp only [PercentilesM]
  rw [if_pos (show 0 ≤ hcexe.middle_bucket_percentile ∧
    hcexe.middle_bucket_percentile < 50 by decide)]
  rw [if_neg (show ¬(hcexe.n = 0) by decide)]
  rw [descBranch_cexe]

lemma reach_hcexd : Reachable hcexd :=
  Reachable.acc _ _ 10200
    (Reachable.acc _ _ 10200
      (Reachable.acc _ _ 10200
        (Reachable.acc _ _ (-5) (Reachable.new 0 100 4 hcex0 New_cex) acc_cex_1)
        acc_cex_2)
      acc_cex_3)
    acc_cex_4

lemma reach_hcexe : Reachable hcexe := by
  have h := Reachable.per hcexd [50] reach_hcexd
  rw [perc_cex_1] at h
  exact h

lemma bucketToValue_strictMono (h : Histogram) (hsc : 0 < h.scale) {i j : ℤ}
    (hij : i < j) : bucketToValue h i < bucketToValue h j := by
  unfold bucketToValue
  have hd : (i : ℝ) / h.scale < (j : ℝ) / h.scale :=
    (div_lt_div_iff_of_pos_right hsc).mpr (by exact_mod_cast hij)
  exact add_lt_add_right (Real.exp_lt_exp.mpr hd) _

lemma bucketToValue_mono (h : Histogram) (hsc : 0 < h.scale) {i j : ℤ}
    (hij : i ≤ j) : bucketToValue h i ≤ bucketToValue h j := by
  unfold bucketToValue
  have hd : (i : ℝ) / h.scale ≤ (j : ℝ) / h.scale :=
    (div_le_div_iff_of_pos_right hsc).mpr (by exact_mod_cast hij)
  exact add_le_add_right (Real.exp_le_exp.mpr hd) _

/-- C1 counterexample: `hcexe` is reachable (`New 0 100 4`, one low-outlier sample,
three high-outlier samples, one `Percentiles(50)` call that cached
`middle_bucket_percentile = 25`). On it, `Percentiles(50)` takes the high-to-low
branch and returns `bucketToValue 4`, while the low-to-high branch on the very same
state would return `bucketToValue 6`: the scan-direction choice changes the returned
values. -/
theorem C1_counterexample :
    Reachable hcexe ∧ List.Sorted (· ≤ ·) [(50 : ℚ)] ∧ [(50 : ℚ)] ≠ [] ∧
      (∀ p ∈ [(50 : ℚ)], 0 ≤ p) ∧
      (PercentilesM hcexe [50]).1 = PerResult.vals (descBranch hcexe [50]) ∧
      descBranch hcexe [50] = [4] ∧
      (ascBranch hcexe [50]).1.map Int.ofNat = [6] ∧
      resultValues hcexe (descBranch hcexe [50]) ≠
        resultValues hcexe ((ascBranch hcexe [50]).1.map Int.ofNat) := by
  have hasc : ascBranch hcexe [50] = ([6], 25) := by
    show ascScan [1, 0, 0, 0, 0, 3] 4 3 [50] 0 0 25 = ([6], 25)
    simp only [ascScan]
    rw [utrunc_50_4]
    rw [show ascWhile [1, 0, 0, 0, 0, 3] 4 2 3 [1, 0, 0, 0, 0, 3].length 0 0 25 =
      (4, 6, 25) by norm_num [ascWhile, U64]]
  refine ⟨reach_hcexe, by simp, by simp, by norm_num, ?_, descBranch_cexe, ?_, ?_⟩
  · rw [perc_cex_2, descBranch_cexe]
  · rw [hasc]
    rfl
  · rw [descBranch_cexe, hasc]
    unfold resultValues
    simp only [List.map_cons, List.map_nil]
    intro hEq
    have h46 : bucketToValue hcexe 4 = bucketToValue hcexe 6 := by
      injection hEq
    exact absurd h46
      (ne_of_lt (bucketToValue_strictMono hcexe scaleCex_pos (by norm_num)))

/-- C2 counterexample: on the reachable state `hcexd`, `Percentile(50)` returns
`bucketToValue 6`; the call caches `middle_bucket_percentile = 25`, so an immediately
following `Percentile(50)` takes the high-to-low branch and returns the strictly
smaller `bucketToValue 4` — sequential `Percentile` calls with `p₁ ≤ p₂` (here equal)
are not monotone. -/
theorem C2_counterexample :
    Reachable hcexd ∧ (50 : ℚ) ≤ 50 ∧
      (PercentileM hcexd 50).1 = some 6 ∧ (PercentileM hcexd 50).2 = hcexe ∧
      (PercentileM hcexe 50).1 = some 4 ∧
      ¬(bucketToValue hcexd 6 ≤ bucketToValue hcexe 4) := by
  refine ⟨reach_hcexd, le_refl _, ?_, ?_, ?_, ?_⟩
  · unfold PercentileM
    rw [perc_cex_1]
    rfl
  · unfold PercentileM
    rw [perc_cex_1]
  · unfold PercentileM
    rw [perc_cex_2]
    rfl
  · have hlt : bucketToValue hcexe 4 < bucketToValue hcexe 6 :=
      bucketToValue_strictMono hcexe scaleCex_pos (by norm_num)
    exact not_le.mpr hlt

lemma ascWhile_i_le (counts : List ℕ) (ntot pn middle : ℕ) :
    ∀ (fuel a i : ℕ) (mbp : ℚ), i ≤ (ascWhile counts ntot pn middle fuel a i mbp).2.1 := by
  intro fuel
  induction fuel with
  | zero => intro a i mbp; exact le_refl i
  | succ f ih =>
    intro a i mbp
    simp only [ascWhile]
    by_cases hc : a < pn ∧ i < counts.length
    · rw [if_pos hc]
      exact le_trans (Nat.le_succ i) (ih _ _ _)
    · rw [if_neg hc]

lemma ascScan_idx_mono (counts : List ℕ) (ntot middle : ℕ) :
    ∀ (pers : List ℚ) (a i : ℕ) (mbp : ℚ),
      (∀ j ∈ (ascScan counts ntot middle pers a i mbp).1, i ≤ j) ∧
        (ascScan counts ntot middle pers a i mbp).1.Pairwise (· ≤ ·) := by
  intro pers
  induction pers with
  | nil =>
    intro a i mbp
    refine ⟨?_, ?_⟩ <;> simp [ascScan]
  | cons p rest ih =>
    intro a i mbp
    simp only [ascScan]
    obtain ⟨ih1, ih2⟩ := ih
      (ascWhile counts ntot (utrunc (p * (ntot : ℚ) / 100)) middle counts.length a i mbp).1
      (ascWhile counts ntot (utrunc (p * (ntot : ℚ) / 100)) middle counts.length a i mbp).2.1
      (ascWhile counts ntot (utrunc (p * (ntot : ℚ) / 100)) middle counts.length a i mbp).2.2
    constructor
    · intro j hj
      rcases List.mem_cons.mp hj with rfl | hj
      · exact ascWhile_i_le counts ntot _ middle counts.length a i mbp
      · exact le_trans (ascWhile_i_le counts ntot _ middle counts.length a i mbp) (ih1 j hj)
    · exact List.Pairwise.cons (fun j hj => ih1 j hj) ih2

lemma descWhile_i_le (counts : List ℕ) (pn : ℕ) :
    ∀ (fuel a : ℕ) (i : ℤ), (descWhile counts pn fuel a i).2 ≤ i := by
  intro fuel
  induction fuel with
  | zero => intro a i; exact le_refl i
  | succ f ih =>
    intro a i
    simp only [descWhile]
    by_cases hc : pn ≤ a ∧ 0 ≤ i
    · rw [if_pos hc]
      exact le_trans (ih _ _) (by omega)
    · rw [if_neg hc]

lemma descScanRev_idx_mono (counts : List ℕ) (ntot : ℕ) :
    ∀ (pers : List ℚ) (a : ℕ) (i : ℤ),
      (∀ j ∈ descScanRev counts ntot pers a i, j ≤ i) ∧
        (descScanRev counts ntot pers a i).Pairwise (fun x y => y ≤ x) := by
  intro pers
  induction pers with
  | nil =>
    intro a i
    refine ⟨?_, ?_⟩ <;> simp [descScanRev]
  | cons p rest ih =>
    intro a i
    simp only [descScanRev]
    obtain ⟨ih1, ih2⟩ := ih
      (descWhile counts (utrunc (p * (ntot : ℚ) / 100)) counts.length a i).1
      (descWhile counts (utrunc (p * (ntot : ℚ) / 100)) counts.length a i).2
    constructor
    · intro j hj
      rcases List.mem_cons.mp hj with rfl | hj
      · exact descWhile_i_le counts _ counts.length a i
      · exact le_trans (ih1 j hj) (descWhile_i_le counts _ counts.length a i)
    · exact List.Pairwise.cons (fun j hj => ih1 j hj) ih2

/-- C2 (amended): within one `Percentiles` call the returned values are nondecreasing
(for any percentile list): both scan branches produce nondecreasing bucket indices, and
`bucketToValue` is monotone. Across two separate `Percentile` calls monotonicity can
fail, because the first call may retarget the scan-direction heuristic (see the
counterexample). -/
theorem C2_amended (h : Histogram) (pers : List ℚ) (idxs : List ℤ)
    (hsc : 0 < h.scale)
    (hres : (PercentilesM h pers).1 = PerResult.vals idxs) :
    List.Sorted (· ≤ ·) idxs ∧ List.Sorted (· ≤ ·) (resultValues h idxs) := by
  have hmain : List.Sorted (· ≤ ·) idxs := by
    cases pers with
    | nil => simp [PercentilesM] at hres
    | cons p0 rest =>
      simp only [PercentilesM] at hres
      by_cases hb : 0 ≤ h.middle_bucket_percentile ∧ h.middle_bucket_percentile < p0
      · rw [if_pos hb] at hres
        by_cases hn : h.n = 0
        · rw [if_pos hn] at hres
          exact absurd hres (by simp)
        · rw [if_neg hn] at hres
          obtain rfl : descBranch h (p0 :: rest) = idxs := by
            have := hres
            simp only at this
            exact PerResult.vals.inj this
          unfold descBranch
          rw [List.Sorted, List.pairwise_reverse]
          exact (descScanRev_idx_mono h.counts h.n ((p0 :: rest).reverse) h.n
            ((h.counts.length : ℤ) - 1)).2
      · rw [if_neg hb] at hres
        by_cases hn : h.n = 0
        · rw [if_pos hn] at hres
          exact absurd hres (by simp)
        · rw [if_neg hn] at hres
          obtain rfl : (ascBranch h (p0 :: rest)).1.map Int.ofNat = idxs := by
            have := hres
            simp only at this
            exact PerResult.vals.inj this
          refine List.Pairwise.map _ ?_
            (ascScan_idx_mono h.counts h.n (h.counts.length / 2) (p0 :: rest) 0 0
              h.middle_bucket_percentile).2
          intro a b hab
          exact Int.ofNat_le.mpr hab
  refine ⟨hmain, ?_⟩
  unfold resultValues
  exact List.Pairwise.map _ (fun a b hab => bucketToValue_mono h hsc hab) hmain

lemma prefixSum_succ (l : List ℕ) (i : ℕ) (hi : i < l.length) :
    prefixSum l (i + 1) = prefixSum l i + l.getD i 0 := by
  unfold prefixSum
  rw [List.sum_take_succ l i hi, List.getD_eq_getElem l 0 hi]

lemma prefixSum_mono (l : List ℕ) {j k : ℕ} (hjk : j ≤ k) :
    prefixSum l j ≤ prefixSum l k := by
  unfold prefixSum
  rw [show k = j + (k - j) by omega, List.take_add, List.sum_append]
  exact Nat.le_add_right _ _

lemma prefixSum_le_sum (l : List ℕ) (k : ℕ) : prefixSum l k ≤ l.sum := by
  unfold prefixSum
  conv_rhs => rw [← List.sum_take_add_sum_drop l k]
  exact Nat.le_add_right _ _

lemma prefixSum_length (l : List ℕ) : prefixSum l l.length = l.sum := by
  unfold prefixSum
  rw [List.take_length]

lemma wrap_sub_eq {a c : ℕ} (hca : c ≤ a) (ha : a < U64) :
    (a + (U64 - c % U64)) % U64 = a - c := by
  have hc : c < U64 := lt_of_le_of_lt hca ha
  rw [Nat.mod_eq_of_lt hc]
  rw [show a + (U64 - c) = (a - c) + U64 by omega, Nat.add_mod_right,
    Nat.mod_eq_of_lt (by omega)]

/-- Exact characterization of the low-to-high inner loop on a consistent state:
`a` stays the prefix sum of the buckets consumed, and the loop exits either having
reached the target count or the end of the array. -/
lemma ascWhile_spec (counts : List ℕ) (ntot pn middle : ℕ) (hsum : counts.sum < U64) :
    ∀ (fuel a i : ℕ) (mbp : ℚ), a = prefixSum counts i → i ≤ counts.length →
      counts.length - i ≤ fuel →
      (ascWhile counts ntot pn middle fuel a i mbp).1 =
          prefixSum counts (ascWhile counts ntot pn middle fuel a i mbp).2.1 ∧
        (ascWhile counts ntot pn middle fuel a i mbp).2.1 ≤ counts.length ∧
        (pn ≤ (ascWhile counts ntot pn middle fuel a i mbp).1 ∨
          (ascWhile counts ntot pn middle fuel a i mbp).2.1 = counts.length) := by
  intro fuel
  induction fuel with
  | zero =>
    intro a i mbp ha hi hfuel
    have hieq : i = counts.length := by omega
    exact ⟨ha, hi, Or.inr hieq⟩
  | succ f ih =>
    intro a i mbp ha hi hfuel
    simp only [ascWhile]
    by_cases hc : a < pn ∧ i < counts.length
    · rw [if_pos hc]
      have hstep : (a + counts.getD i 0) % U64 = prefixSum counts (i + 1) := by
        rw [ha, ← prefixSum_succ counts i hc.2]
        exact Nat.mod_eq_of_lt (lt_of_le_of_lt (prefixSum_le_sum counts (i + 1)) hsum)
      exact ih _ _ _ hstep (by omega) (by omega)
    · rw [if_neg hc]
      push_neg at hc
      refine ⟨ha, hi, ?_⟩
      by_cases h1 : pn ≤ a
      · exact Or.inl h1
      · refine Or.inr ?_
        show i = counts.length
        have h2 := hc (by omega)
        omega

/-- Each slot of the low-to-high scan satisfies the exit condition of its
inner loop: the prefix sum at the returned index has reached the target count,
unless the scan ran off the end of the array. -/
lemma ascScan_spec (counts : List ℕ) (ntot middle : ℕ) (hsum : counts.sum < U64) :
    ∀ (pers : List ℚ) (a i : ℕ) (mbp : ℚ), a = prefixSum counts i →
      i ≤ counts.length →
      List.Forall₂
        (fun p j => utrunc (p * (ntot : ℚ) / 100) ≤ prefixSum counts j ∨
          j = counts.length)
        pers (ascScan counts ntot middle pers a i mbp).1 := by
  intro pers
  induction pers with
  | nil =>
    intro a i mbp _ _
    simp [ascScan]
  | cons p rest ih =>
    intro a i mbp ha hi
    simp only [ascScan]
    obtain ⟨w1, w2, w3⟩ := ascWhile_spec counts ntot (utrunc (p * (ntot : ℚ) / 100))
      middle hsum counts.length a i mbp ha hi (by omega)
    refine List.Forall₂.cons ?_ (ih _ _ _ w1 w2)
    rcases w3 with hw | hw
    · exact Or.inl (w1 ▸ hw)
    · exact Or.inr hw

/-- Exact characterization of the high-to-low inner loop on a consistent state:
`a` stays the prefix sum of the buckets not yet subtracted, and the loop exits either
having dropped below the target count or having run past index 0. -/
lemma descWhile_spec (counts : List ℕ) (pn : ℕ) (hsum : counts.sum < U64) :
    ∀ (fuel : ℕ) (a : ℕ) (i : ℤ), a = prefixSum counts (i + 1).toNat →
      -1 ≤ i → i < (counts.length : ℤ) → (i + 1).toNat ≤ fuel →
      (descWhile counts pn fuel a i).1 =
          prefixSum counts ((descWhile counts pn fuel a i).2 + 1).toNat ∧
        -1 ≤ (descWhile counts pn fuel a i).2 ∧
        (descWhile counts pn fuel a i).2 ≤ i ∧
        ((descWhile counts pn fuel a i).1 < pn ∨ (descWhile counts pn fuel a i).2 = -1) := by
  intro fuel
  induction fuel with
  | zero =>
    intro a i hA hge hlt hfuel
    have hieq : i = -1 := by omega
    exact ⟨hA, hge, le_refl _, Or.inr hieq⟩
  | succ f ih =>
    intro a i hA hge hlt hfuel
    simp only [descWhile]
    by_cases hc : pn ≤ a ∧ 0 ≤ i
    · rw [if_pos hc]
      have hit : i.toNat < counts.length := by omega
      have hi1 : (i + 1).toNat = i.toNat + 1 := by omega
      have hps := prefixSum_succ counts i.toNat hit
      have hc_le : counts.getD i.toNat 0 ≤ a := by
        rw [hA, hi1, hps]
        omega
      have ha_lt : a < U64 :=
        lt_of_le_of_lt (hA ▸ prefixSum_le_sum counts (i + 1).toNat) hsum
      have hstep : (a + (U64 - counts.getD i.toNat 0 % U64)) % U64 =
          prefixSum counts ((i - 1) + 1).toNat := by
        rw [wrap_sub_eq hc_le ha_lt, hA, hi1, hps]
        have : ((i - 1) + 1).toNat = i.toNat := by omega
        rw [this]
        omega
      obtain ⟨r1, r2, r3, r4⟩ := ih _ _ hstep (by omega) (by omega) (by omega)
      exact ⟨r1, r2, le_trans r3 (by omega), r4⟩
    · rw [if_neg hc]
      push_neg at hc
      refine ⟨hA, hge, le_refl _, ?_⟩
      by_cases h1 : a < pn
      · exact Or.inl h1
      · refine Or.inr ?_
        show i = -1
        have h2 := hc (by omega)
        omega

/-- Each slot of the high-to-low scan satisfies the exit condition of its inner loop:
the prefix sum just above the returned index has dropped below the target count,
unless the scan ran past index 0. -/
lemma descScanRev_spec (counts : List ℕ) (ntot : ℕ) (hsum : counts.sum < U64) :
    ∀ (pers : List ℚ) (a : ℕ) (i : ℤ), a = prefixSum counts (i + 1).toNat →
      -1 ≤ i → i < (counts.length : ℤ) →
      List.Forall₂
        (fun p j => (-1 ≤ j ∧ j < (counts.length : ℤ)) ∧
          (prefixSum counts (j + 1).toNat < utrunc (p * (ntot : ℚ) / 100) ∨ j = -1))
        pers (descScanRev counts ntot pers a i) := by
  intro pers
  induction pers with
  | nil =>
    intro a i _ _ _
    simp [descScanRev]
  | cons p rest ih =>
    intro a i hA hge hlt
    simp only [descScanRev]
    obtain ⟨r1, r2, r3, r4⟩ := descWhile_spec counts (utrunc (p * (ntot : ℚ) / 100))
      hsum counts.length a i hA hge hlt (by omega)
    refine List.Forall₂.cons ⟨⟨r2, by omega⟩, ?_⟩ (ih _ _ r1 r2 (by omega))
    rcases r4 with hw | hw
    · exact Or.inl (r1 ▸ hw)
    · exact Or.inr hw

/-- Pointwise comparison: a high-to-low slot index never exceeds the low-to-high slot
index for the same percentile, because the two exit conditions bracket the same
monotone prefix-sum. -/
lemma desc_le_asc (counts : List ℕ) (ntot : ℕ) :
    ∀ (pers : List ℚ) (ds : List ℤ) (asz : List ℕ),
      List.Forall₂
        (fun p j => (-1 ≤ j ∧ j < (counts.length : ℤ)) ∧
          (prefixSum counts (j + 1).toNat < utrunc (p * (ntot : ℚ) / 100) ∨ j = -1))
        pers ds →
      List.Forall₂
        (fun p j => utrunc (p * (ntot : ℚ) / 100) ≤ prefixSum counts j ∨
          j = counts.length)
        pers asz →
      List.Forall₂ (fun (d : ℤ) (a : ℕ) => d ≤ (a : ℤ)) ds asz := by
  intro pers
  induction pers with
  | nil =>
    intro ds asz hd ha
    cases hd
    cases ha
    exact List.Forall₂.nil
  | cons p pers' ih =>
    intro ds asz hd ha
    cases ds with
    | nil => cases hd
    | cons d ds' =>
      cases asz with
      | nil => cases ha
      | cons b asz' =>
        cases hd with
        | cons hrel hrest =>
          cases ha with
          | cons harel harest =>
            refine List.Forall₂.cons ?_ (ih ds' asz' hrest harest)
            obtain ⟨⟨hge, hlt⟩, hPd⟩ := hrel
            rcases hPd with hPd | hdeq
            · rcases harel with hPa | hbeq
              · by_contra hcon
                push_neg at hcon
                have hble : b ≤ (d + 1).toNat := by omega
                have hmono := prefixSum_mono counts hble
                omega
              · subst hbeq
                omega
            · subst hdeq
              omega

/-- C1 (amended): for every histogram state whose cached total equals the sum of the
counters (every sequentially reachable state, totals below 2^64) and every percentile
list, the high-to-low scan branch returns, slot for slot, a value less than or equal
to the low-to-high branch's value — but not necessarily the same value (see the
counterexample): the scan-direction heuristic does affect the returned values. -/
theorem C1_amended (h : Histogram) (pers : List ℚ)
    (hn : h.n = h.counts.sum) (hlt : h.counts.sum < U64) (hsc : 0 < h.scale) :
    List.Forall₂ (· ≤ ·) (descBranch h pers) ((ascBranch h pers).1.map Int.ofNat) ∧
      List.Forall₂ (· ≤ ·) (resultValues h (descBranch h pers))
        (resultValues h ((ascBranch h pers).1.map Int.ofNat)) := by
  have ha := ascScan_spec h.counts h.n (h.counts.length / 2) hlt pers 0 0
    h.middle_bucket_percentile rfl (Nat.zero_le _)
  have hd0 := descScanRev_spec h.counts h.n hlt pers.reverse h.n
    ((h.counts.length : ℤ) - 1)
    (by
      rw [hn, show (((h.counts.length : ℤ) - 1) + 1).toNat = h.counts.length by omega,
        prefixSum_length])
    (by omega) (by omega)
  have hd : List.Forall₂
      (fun p j => (-1 ≤ j ∧ j < (h.counts.length : ℤ)) ∧
        (prefixSum h.counts (j + 1).toNat < utrunc (p * (h.n : ℚ) / 100) ∨ j = -1))
      pers (descBranch h pers) := by
    unfold descBranch
    have := List.rel_reverse hd0
    simpa using this
  have hcmp := desc_le_asc h.counts h.n pers (descBranch h pers) (ascBranch h pers).1 hd ha
  constructor
  · rw [List.forall₂_map_right_iff]
    exact hcmp
  · unfold resultValues
    rw [List.forall₂_map_right_iff, List.forall₂_map_left_iff,
      List.forall₂_map_right_iff]
    refine List.Forall₂.imp ?_ hcmp
    intro d b hab
    exact bucketToValue_mono h hsc hab

/-- C7 counterexample: on `New 0 100 4`, the low outlier index 0 maps to
`exp(0/scale) + shift = 1 + (low - 1) = low = 0`, which lies inside `[low, high]`,
not strictly outside it. -/
theorem C7_counterexample :
    New 0 100 4 = some hcex0 ∧ bucketToValue hcex0 0 = 0 ∧
      ¬(bucketToValue hcex0 0 < 0 ∨ 100 < bucketToValue hcex0 0) := by
  have hb : bucketToValue hcex0 0 = 0 := by
    unfold bucketToValue hcex0
    norm_num
  exact ⟨New_cex, hb, by rw [hb]; norm_num⟩

/-- C7 (amended): for every histogram `New` builds with `low < high`, the value at the
high outlier index (`len(counts) - 1`) lies strictly above `high`; the value at the low
outlier index 0, however, equals `low` exactly — on the boundary of the domain, not
strictly outside it. -/
theorem C7_outlier_values (low high : ℝ) (B : ℤ) (h : Histogram)
    (hnew : New low high B = some h) (hlh : low < high) :
    bucketToValue h 0 = low ∧ high < bucketToValue h ((h.counts.length : ℤ) - 1) := by
  by_cases hc : high < low ∨ B ≤ 0
  · simp [New, hc] at hnew
  · rw [New_eq_some hc] at hnew
    obtain rfl : _ = h := Option.some_inj.mp hnew
    push_neg at hc
    have hB1 : (1 : ℝ) ≤ (B : ℤ) := by exact_mod_cast hc.2
    have hL_pos : 0 < Real.log (high - (low - 1)) := Real.log_pos (by linarith)
    have heps : (0 : ℝ) < 1 - epsilon := by linarith [epsilon_lt_one]
    constructor
    · unfold bucketToValue
      norm_num
    · unfold bucketToValue
      simp only [List.length_replicate]
      have hlen : (((2 + B).toNat : ℕ) : ℤ) - 1 = B + 1 := by
        rw [Int.toNat_of_nonneg (by omega)]
        ring
      rw [hlen]
      have hsargs : (((B : ℤ) + 1 : ℤ) : ℝ) = (B : ℝ) + 1 := by push_cast; ring
      rw [hsargs]
      have harg : Real.log (high - (low - 1)) <
          ((B : ℝ) + 1) / ((B : ℝ) * (1 - epsilon) / Real.log (high - (low - 1))) := by
        rw [div_div_eq_mul_div, lt_div_iff₀ (by positivity)]
        have hBe : (B : ℝ) * (1 - epsilon) < (B : ℝ) + 1 := by
          nlinarith [epsilon_pos, hB1]
        linarith [mul_lt_mul_of_pos_right hBe hL_pos,
          mul_comm (Real.log (high - (low - 1))) ((B : ℝ) * (1 - epsilon))]
      calc high = (high - (low - 1)) + (low - 1) := by ring
        _ = Real.exp (Real.log (high - (low - 1))) + (low - 1) := by
            rw [Real.exp_log (by linarith)]
        _ < Real.exp (((B : ℝ) + 1) /
              ((B : ℝ) * (1 - epsilon) / Real.log (high - (low - 1)))) + (low - 1) :=
            add_lt_add_right (Real.exp_lt_exp.mpr harg) _

/-- C7 witness: instantiated at `New 0 100 4`. -/
theorem C7_witness :
    (0 : ℝ) < 100 ∧ bucketToValue hcex0 0 = 0 ∧
      100 < bucketToValue hcex0 ((hcex0.counts.length : ℤ) - 1) :=
  ⟨by norm_num, (C7_outlier_values 0 100 4 hcex0 New_cex (by norm_num)).1,
    (C7_outlier_values 0 100 4 hcex0 New_cex (by norm_num)).2⟩

/-- C1 witness: the amended pointwise bound instantiated on the reachable state
`hcexe` and the percentile list `[50]`. -/
theorem C1_witness :
    (hcexe.n = hcexe.counts.sum ∧ hcexe.counts.sum < U64 ∧ 0 < hcexe.scale) ∧
      List.Forall₂ (· ≤ ·) (descBranch hcexe [50])
        ((ascBranch hcexe [50]).1.map Int.ofNat) ∧
      List.Forall₂ (· ≤ ·) (resultValues hcexe (descBranch hcexe [50]))
        (resultValues hcexe ((ascBranch hcexe [50]).1.map Int.ofNat)) :=
  ⟨⟨by decide, by decide, scaleCex_pos⟩,
    (C1_amended hcexe [50] (by decide) (by decide) scaleCex_pos).1,
    (C1_amended hcexe [50] (by decide) (by decide) scaleCex_pos).2⟩

/-- C2 witness: the amended single-call monotonicity instantiated on `hcexe` with
percentile list `[50]` (result indices `[4]`). -/
theorem C2_witness :
    (0 < hcexe.scale ∧ (PercentilesM hcexe [50]).1 = PerResult.vals [4]) ∧
      List.Sorted (· ≤ ·) [(4 : ℤ)] ∧
      List.Sorted (· ≤ ·) (resultValues hcexe [4]) := by
  have hres : (PercentilesM hcexe [50]).1 = PerResult.vals [4] := by rw [perc_cex_2]
  exact ⟨⟨scaleCex_pos, hres⟩, C2_amended hcexe [50] [4] scaleCex_pos hres⟩

lemma sub_cex : Histogram.Sub hcexe hcexe = some hcexz := by
  unfold Histogram.Sub
  rw [if_pos rfl]
  show some { hcexe with counts := (subLoop hcexe.counts hcexe.counts hcexe.n).1, n := (subLoop hcexe.counts hcexe.counts hcexe.n).2 } = some hcexz
  rw [show (subLoop hcexe.counts hcexe.counts hcexe.n).1 = [0, 0, 0, 0, 0, 0] from by
    decide]
  rw [show (subLoop hcexe.counts hcexe.counts hcexe.n).2 = 0 from by decide]
  rfl

lemma subpkg_cex : Sub hcexe hcexe = some hcexz := by
  unfold Sub
  rw [if_pos rfl]
  show some { hcexe with counts := (subPkgLoop hcexe.counts hcexe.counts 0).1, n := (subPkgLoop hcexe.counts hcexe.counts 0).2 } = some hcexz
  rw [show (subPkgLoop hcexe.counts hcexe.counts 0).1 = [0, 0, 0, 0, 0, 0] from by
    decide]
  rw [show (subPkgLoop hcexe.counts hcexe.counts 0).2 = 0 from by decide]
  rfl

/-- C5 witness: the invariant-preservation conjuncts instantiated on concrete states:
an `Accumulate(-5)` on the fresh histogram, the in-place and package-level `Sub` of
`hcexe` with itself, `Window` on `wcex`, and `Dup` of `hcexe`. -/
theorem C5_witness :
    Inv hcex0 ∧ Inv hcexa ∧ Inv hcexz ∧
      (Inv (Window wcex).toHistogram ∧
        (Window wcex).prev_n = (Window wcex).prev_counts.sum % U64) ∧
      Inv (Dup hcexe) ∧ Inv hcexz := by
  have i0 : Inv hcex0 := by unfold Inv; decide
  have ie : Inv hcexe := by unfold Inv; decide
  have iw : Inv wcex.toHistogram := by unfold Inv; decide
  exact ⟨i0, C5_n_is_sum_invariant.1 hcex0 hcexa (-5) i0 acc_cex_1,
    C5_n_is_sum_invariant.2.1 hcexe hcexe hcexz ie sub_cex,
    C5_n_is_sum_invariant.2.2.1 wcex iw,
    C5_n_is_sum_invariant.2.2.2.1 hcexe,
    C5_n_is_sum_invariant.2.2.2.2 hcexe hcexe hcexz subpkg_cex⟩

/-- C8 witness: instantiated on the reachable state `hcexe`. -/
theorem C8_witness :
    Inv hcexe ∧
      ∃ h', Histogram.Sub hcexe (Dup hcexe) = some h' ∧ Count h' = 0 ∧
        ∀ c ∈ h'.counts, c = 0 :=
  ⟨by unfold Inv; decide, C8_dup_then_sub_zeroes hcexe (by unfold Inv; decide)⟩

/-- C6 witness: instantiated on the concrete windowed histogram `wcex`. -/
theorem C6_witness :
    ((Window wcex).prev_n = wcex.toHistogram.n ∧
      (Window wcex).prev_counts = wcex.toHistogram.counts ∧
      (Window wcex).toHistogram.n = 0 ∧
      (Window wcex).toHistogram.counts = List.replicate wcex.prev_counts.length 0) ∧
      WCount (Window wcex) = wcex.toHistogram.n ∧
      WCount (Window (Window wcex)) = 0 ∧
      (WCount wcex = 0 ↔ wcex.toHistogram.n = 0 ∧ wcex.prev_n = 0) :=
  ⟨C6_window_semantics.1 wcex,
    C6_window_semantics.2.1 wcex (by decide),
    C6_window_semantics.2.2.1 wcex,
    C6_window_semantics.2.2.2 wcex (by decide)⟩

end loghistogram
